import Mathlib

/-!
Verification of the list-manager entry store implemented in `src/app.py`.

Modelling conventions:
* Strings (file names, entry values, decoded file contents) are lists of
  characters (`Str := List Char`); files are UTF-8 text and the model works
  on the decoded text.
* The deployment platform is Linux (the source ships a systemd unit), so
  `os.linesep = "\n"` and text-mode *writes* are verbatim, while text-mode
  *reads* apply Python's universal-newline translation (`\r\n` and lone
  `\r` become `\n`); this is captured by `translate`.
* A `Sys` value holds the storage directory: the list files, the backup
  copies made by `create_backup`, and the `change.log` ledger.  Backup
  timestamps and ledger timestamps are not modelled (no claim mentions
  them); a backup is recorded as the pair (list name, copied content).
* The per-path locking (`file_lock`) serialises operations; the model is
  the sequential semantics of one operation running under the lock.
* The ledger append in `log_change` can fail at the OS level; each mutating
  operation takes a `logOk : Bool` telling whether that append succeeds.
  A failing append raises, which the model maps to `Err.IOFailure`.
-/

namespace ListManager

deriving instance DecidableEq for Except

abbrev Str := List Char

/-- Error kinds raised by the endpoints, keyed by their `HTTPException`
detail strings: `InvalidName` for the three filename rejections (400),
`EmptyEntry` for "Empty entries are not allowed" (400), `NotFound` for
"File not found" (404), `IndexOutOfRange` for "Invalid line index" (400),
`DuplicateEntry` for "Entry already exists" (400), and `IOFailure` for an
OS-level error escaping `log_change`. -/
inductive Err where
  | InvalidName
  | EmptyEntry
  | NotFound
  | IndexOutOfRange
  | DuplicateEntry
  | IOFailure
deriving DecidableEq, Repr

/-- The whitespace characters stripped by Python's `str.strip()` (ASCII
part; the claims never involve non-ASCII whitespace). -/
def pySpace (c : Char) : Bool :=
  c = ' ' || c = '\t' || c = '\n' || c = '\r' || c = '\u000B' || c = '\u000C'

/-- Python `value.strip()`: drop whitespace from both ends. -/
def pyStrip (s : Str) : Str :=
  ((s.dropWhile pySpace).reverse.dropWhile pySpace).reverse

/-- First phase of universal-newline translation: each `\r\n` pair becomes
`\n`. -/
def stripCRLF : Str → Str
  | [] => []
  | [c] => [c]
  | c :: d :: rest =>
    if c = '\r' && d = '\n' then '\n' :: stripCRLF rest
    else c :: stripCRLF (d :: rest)

/-- Universal-newline translation applied by every text-mode read
(`open(..., 'r', encoding='utf-8')` with default `newline=None`):
`\r\n` and lone `\r` both become `\n`. -/
def translate (s : Str) : Str :=
  (stripCRLF s).map (fun c => if c = '\r' then '\n' else c)

/-- Python `s.split('\n')` (also the line structure seen by `readlines`):
splitting the empty string yields one empty piece. -/
def splitNL : Str → List Str
  | [] => [[]]
  | c :: rest =>
    if c = '\n' then [] :: splitNL rest
    else
      match splitNL rest with
      | [] => [[c]]
      | s :: ss => (c :: s) :: ss

/-- Python `'\n'.join(lines)`. -/
def joinNL : List Str → Str
  | [] => []
  | [l] => l
  | l :: ls => l ++ '\n' :: joinNL ls

/-- `write_file_lines` (src/app.py 212-220): join the lines with `\n` and
append a trailing `\n` iff the list is non-empty.  On Linux the text-mode
write stores exactly these characters. -/
def writeLines (lines : List Str) : Str :=
  if lines = [] then [] else joinNL lines ++ ['\n']

/-- `read_file_lines` (src/app.py 202-210): `[]` for an absent file,
otherwise the non-blank lines of the translated content.  (`readlines`
splits the translated text on `\n`; the `line.strip()` filter drops blank
lines; `line.rstrip('\n\r')` only removes the terminator, which the
splitting already excludes, and translated text contains no `\r`.) -/
def readLines (c : Option Str) : List Str :=
  match c with
  | none => []
  | some s => (splitNL (translate s)).filter (fun l => !(pyStrip l).isEmpty)

/-- Python `needle in hay` substring test. -/
def hasSub (needle : Str) : Str → Bool
  | [] => needle.isPrefixOf []
  | c :: rest => needle.isPrefixOf (c :: rest) || hasSub needle rest

/-- The character allow-list of the regex `^[a-zA-Z0-9_\-\.]+\.txt$`. -/
def allowedChar (c : Char) : Bool :=
  ('a' ≤ c && c ≤ 'z') || ('A' ≤ c && c ≤ 'Z') || ('0' ≤ c && c ≤ '9') ||
  c = '_' || c = '-' || c = '.'

def txtSuffix : Str := ['.', 't', 'x', 't']

/-- `validate_filename` (src/app.py 129-151): must end in `.txt`; must not
contain `..`, `/` or `\`; must match `^[a-zA-Z0-9_\-\.]+\.txt$` (equivalent
to: every character allowed, ends in `.txt`, and length at least 5).  The
final resolved-path containment check always succeeds for a name passing
the earlier checks, since such a name has no separators and no `..`
segment, so it is not modelled as a separate condition. -/
def validFilename (name : Str) : Bool :=
  txtSuffix.isSuffixOf name
  && !(hasSub ['.', '.'] name)
  && !(name.contains '/')
  && !(name.contains '\\')
  && (name.all allowedChar && decide (5 ≤ name.length))

/-- One `change.log` record (timestamp omitted): list name, action tag,
and the bracketed payload (`old -> new`, `old`, `new`, or absent),
following the four format cases of `log_change` (src/app.py 177-196). -/
structure LogLine where
  file : Str
  action : Str
  payload : Option Str
deriving DecidableEq, Repr

/-- The payload cases of `log_change`: Python truthiness on strings is
non-emptiness. -/
def mkPayload (oldValue newValue : Str) : Option Str :=
  if oldValue ≠ [] ∧ newValue ≠ [] then
    some (oldValue ++ [' ', '-', '>', ' '] ++ newValue)
  else if oldValue ≠ [] then some oldValue
  else if newValue ≠ [] then some newValue
  else none

/-- The storage directory: list files (name, content), backup copies made
by `create_backup`, and the ledger. -/
structure Sys where
  files : List (Str × Str)
  backups : List (Str × Str)
  ledger : List LogLine
deriving DecidableEq, Repr

def emptySys : Sys := ⟨[], [], []⟩

def lookupFile : List (Str × Str) → Str → Option Str
  | [], _ => none
  | (n, c) :: rest, name => if n = name then some c else lookupFile rest name

def putFile : List (Str × Str) → Str → Str → List (Str × Str)
  | [], name, c => [(name, c)]
  | (n, c0) :: rest, name, c =>
    if n = name then (n, c) :: rest else (n, c0) :: putFile rest name c

/-- `create_backup` (src/app.py 166-175): if the file exists, copy its
current content to a timestamped sibling.  The source file is read in text
mode, so the copy holds the translated content; absent files are a no-op. -/
def doBackup (sys : Sys) (name : Str) : Sys :=
  match lookupFile sys.files name with
  | none => sys
  | some c => { sys with backups := sys.backups ++ [(name, translate c)] }

/-- `log_change` (src/app.py 177-196): append one record to the ledger. -/
def appendLog (sys : Sys) (name action oldValue newValue : Str) : Sys :=
  { sys with ledger := sys.ledger ++ [⟨name, action, mkPayload oldValue newValue⟩] }

/-- `add_entry` endpoint (src/app.py 253-276): validate the name, trim and
check the value, back up, read, reject duplicates, append, rewrite the
file, log, and return the new index `len(lines) - 1` with the value.
`logOk` tells whether the ledger append succeeds; when it fails the raised
error escapes after the file has already been rewritten. -/
def addEntry (sys : Sys) (name raw : Str) (logOk : Bool) :
    Sys × Except Err (Nat × Str) :=
  if !validFilename name then (sys, .error .InvalidName)
  else
    let value := pyStrip raw
    if value = [] then (sys, .error .EmptyEntry)
    else
      let sys1 := doBackup sys name
      let lines := readLines (lookupFile sys1.files name)
      if value ∈ lines then (sys1, .error .DuplicateEntry)
      else
        let lines2 := lines ++ [value]
        let sys2 := { sys1 with files := putFile sys1.files name (writeLines lines2) }
        if logOk then
          (appendLog sys2 name ['A', 'D', 'D'] [] value, .ok (lines2.length - 1, value))
        else (sys2, .error .IOFailure)

/-- `update_entry` endpoint (src/app.py 278-308): validate the name, check
existence, trim and check the value, back up, read, bounds-check the
index, reject a value equal to a different line (`lines.index(value) !=
index`), set the line, rewrite, log, and return (old, new). -/
def updateEntry (sys : Sys) (name : Str) (index : Int) (raw : Str) (logOk : Bool) :
    Sys × Except Err (Str × Str) :=
  if !validFilename name then (sys, .error .InvalidName)
  else match lookupFile sys.files name with
  | none => (sys, .error .NotFound)
  | some _ =>
    let value := pyStrip raw
    if value = [] then (sys, .error .EmptyEntry)
    else
      let sys1 := doBackup sys name
      let lines := readLines (lookupFile sys1.files name)
      if index < 0 ∨ (lines.length : Int) ≤ index then (sys1, .error .IndexOutOfRange)
      else
        let i := index.toNat
        let oldValue := lines.getD i []
        if value ∈ lines ∧ (lines.indexOf value : Int) ≠ index then
          (sys1, .error .DuplicateEntry)
        else
          let lines2 := lines.set i value
          let sys2 := { sys1 with files := putFile sys1.files name (writeLines lines2) }
          if logOk then
            (appendLog sys2 name ['U', 'P', 'D', 'A', 'T', 'E'] oldValue value,
              .ok (oldValue, value))
          else (sys2, .error .IOFailure)

/-- `delete_entry` endpoint (src/app.py 310-332): validate the name, check
existence, back up, read, bounds-check, pop the line, rewrite, log, and
return the deleted value. -/
def deleteEntry (sys : Sys) (name : Str) (index : Int) (logOk : Bool) :
    Sys × Except Err Str :=
  if !validFilename name then (sys, .error .InvalidName)
  else match lookupFile sys.files name with
  | none => (sys, .error .NotFound)
  | some _ =>
    let sys1 := doBackup sys name
    let lines := readLines (lookupFile sys1.files name)
    if index < 0 ∨ (lines.length : Int) ≤ index then (sys1, .error .IndexOutOfRange)
    else
      let i := index.toNat
      let deleted := lines.getD i []
      let lines2 := lines.eraseIdx i
      let sys2 := { sys1 with files := putFile sys1.files name (writeLines lines2) }
      if logOk then
        (appendLog sys2 name ['D', 'E', 'L', 'E', 'T', 'E'] deleted [], .ok deleted)
      else (sys2, .error .IOFailure)

/-- `get_file_entries` endpoint (src/app.py 240-251): validate the name,
check existence, and return the entries paired with their 0-based
indices. -/
def getFileEntries (sys : Sys) (name : Str) : Except Err (List (Nat × Str)) :=
  if !validFilename name then .error .InvalidName
  else match lookupFile sys.files name with
  | none => .error .NotFound
  | some c => .ok ((readLines (some c)).enum)

/-- `export_file` endpoint (src/app.py 334-347): validate the name, check
existence, and return the file content read in text mode (hence
newline-translated).  The trailing `PlainTextResponse("")` fallback is
unreachable once the existence check has passed. -/
def exportFile (sys : Sys) (name : Str) : Except Err Str :=
  if !validFilename name then .error .InvalidName
  else match lookupFile sys.files name with
  | none => .error .NotFound
  | some c => .ok (translate c)

/-- Lexicographic comparison of strings by code point, as Python's
`sorted` compares the globbed paths. -/
def strLe : Str → Str → Bool
  | [], _ => true
  | _ :: _, [] => false
  | a :: s, b :: t => if a = b then strLe s t else decide (a < b)

def insertSorted (n : Str) : List Str → List Str
  | [] => [n]
  | m :: rest => if strLe n m then n :: m :: rest else m :: insertSorted n rest

def sortStr : List Str → List Str
  | [] => []
  | n :: rest => insertSorted n (sortStr rest)

/-- `list_files` endpoint (src/app.py 226-238): the `*.txt` names of the
storage directory, sorted, minus names ending in `.lock`, names containing
`.bak.`, and `change.log`. -/
def listFiles (sys : Sys) : List Str :=
  (sortStr ((sys.files.map Prod.fst).filter (fun n => txtSuffix.isSuffixOf n))).filter
    (fun n => !((".lock".toList).isSuffixOf n)
      && !(hasSub (".bak.".toList) n)
      && n != ("change.log".toList))

/-- The entry sequence a client observes for a list: what
`read_file_lines` yields on its current content. -/
def entriesOf (sys : Sys) (name : Str) : List Str :=
  readLines (lookupFile sys.files name)

/-- The list invariant exactly as the specification states it: no two
entries equal after trimming, no entry empty after trimming. -/
def listInvStated (L : List Str) : Prop :=
  (L.map pyStrip).Nodup ∧ ∀ e ∈ L, pyStrip e ≠ []

/-- The invariant the code actually maintains: entries pairwise distinct
as exact strings, none blank. -/
def listInvRaw (L : List Str) : Prop :=
  L.Nodup ∧ ∀ e ∈ L, pyStrip e ≠ []

instance (L : List Str) : Decidable (listInvStated L) := by
  unfold listInvStated; infer_instance

instance (L : List Str) : Decidable (listInvRaw L) := by
  unfold listInvRaw; infer_instance

/-! ### Lemmas about the text-level helpers -/

theorem stripCRLF_of_not_mem : ∀ s : Str, '\r' ∉ s → stripCRLF s = s
  | [], _ => rfl
  | [_], _ => rfl
  | c :: d :: rest, h => by
    have hc : c ≠ '\r' := fun hh => h (hh ▸ List.mem_cons_self _ _)
    have ht : '\r' ∉ d :: rest := fun hm => h (List.mem_cons_of_mem _ hm)
    have hrec := stripCRLF_of_not_mem (d :: rest) ht
    simp only [stripCRLF]
    rw [if_neg (by simp [hc]), hrec]

theorem translate_of_not_mem {s : Str} (h : '\r' ∉ s) : translate s = s := by
  unfold translate
  rw [stripCRLF_of_not_mem s h]
  have hid : ∀ c ∈ s, (if c = '\r' then '\n' else c) = id c := by
    intro c hc
    have hcne : c ≠ '\r' := fun he => h (he ▸ hc)
    simp [hcne]
  rw [List.map_congr_left hid, List.map_id]

theorem cr_not_mem_translate (s : Str) : '\r' ∉ translate s := by
  intro h
  obtain ⟨c, _, hc⟩ := List.mem_map.1 h
  by_cases h' : c = '\r'
  · rw [if_pos h'] at hc
    exact absurd hc (by decide)
  · rw [if_neg h'] at hc
    exact h' hc

theorem nl_not_mem_of_mem_splitNL :
    ∀ {s : Str} {e : Str}, e ∈ splitNL s → '\n' ∉ e
  | [], e, he => by
    simp only [splitNL, List.mem_singleton] at he
    simp [he]
  | c :: rest, e, he => by
    by_cases hc : c = '\n'
    · simp only [splitNL, if_pos hc] at he
      rcases List.mem_cons.1 he with h | h
      · simp [h]
      · exact nl_not_mem_of_mem_splitNL h
    · simp only [splitNL, if_neg hc] at he
      cases hr : splitNL rest with
      | nil =>
        rw [hr] at he
        simp only [List.mem_singleton] at he
        subst he
        simp only [List.mem_singleton]
        exact fun hh => hc hh.symm
      | cons s ss =>
        rw [hr] at he
        rcases List.mem_cons.1 he with h | h
        · subst h
          intro hm
          rcases List.mem_cons.1 hm with h | h
          · exact hc h.symm
          · exact nl_not_mem_of_mem_splitNL (hr ▸ List.mem_cons_self s ss) h
        · exact nl_not_mem_of_mem_splitNL (hr ▸ List.mem_cons_of_mem s h)

theorem mem_of_mem_splitNL :
    ∀ {s : Str} {e : Str} {ch : Char}, e ∈ splitNL s → ch ∈ e → ch ∈ s
  | [], e, ch, he, hch => by
    simp only [splitNL, List.mem_singleton] at he
    subst he
    simp at hch
  | c :: rest, e, ch, he, hch => by
    by_cases hc : c = '\n'
    · simp only [splitNL, if_pos hc] at he
      rcases List.mem_cons.1 he with h | h
      · subst h; simp at hch
      · exact List.mem_cons_of_mem _ (mem_of_mem_splitNL h hch)
    · simp only [splitNL, if_neg hc] at he
      cases hr : splitNL rest with
      | nil =>
        rw [hr] at he
        simp only [List.mem_singleton] at he
        subst he
        simp only [List.mem_singleton] at hch
        simp [hch]
      | cons s ss =>
        rw [hr] at he
        rcases List.mem_cons.1 he with h | h
        · subst h
          rcases List.mem_cons.1 hch with h | h
          · simp [h]
          · exact List.mem_cons_of_mem _
              (mem_of_mem_splitNL (hr ▸ List.mem_cons_self s ss) h)
        · exact List.mem_cons_of_mem _
            (mem_of_mem_splitNL (hr ▸ List.mem_cons_of_mem s h) hch)

theorem splitNL_append_nl :
    ∀ (l t : Str), '\n' ∉ l → splitNL (l ++ '\n' :: t) = l :: splitNL t
  | [], t, _ => by simp [splitNL]
  | c :: l, t, h => by
    have hc : c ≠ '\n' := fun hh => h (hh ▸ List.mem_cons_self _ _)
    have hl : '\n' ∉ l := fun hm => h (List.mem_cons_of_mem _ hm)
    have ih := splitNL_append_nl l t hl
    show splitNL (c :: (l ++ '\n' :: t)) = (c :: l) :: splitNL t
    simp only [splitNL, if_neg hc, List.append_eq, ih]

theorem mem_joinNL :
    ∀ {L : List Str} {ch : Char}, ch ∈ joinNL L → ch = '\n' ∨ ∃ l ∈ L, ch ∈ l
  | [], ch, h => by simp [joinNL] at h
  | [l], ch, h => by
    simp only [joinNL] at h
    exact Or.inr ⟨l, List.mem_singleton_self l, h⟩
  | l :: l' :: ls, ch, h => by
    simp only [joinNL, List.mem_append, List.mem_cons] at h
    rcases h with h | h | h
    · exact Or.inr ⟨l, List.mem_cons_self _ _, h⟩
    · exact Or.inl h
    · rcases mem_joinNL h with h | ⟨m, hm, hchm⟩
      · exact Or.inl h
      · exact Or.inr ⟨m, List.mem_cons_of_mem _ hm, hchm⟩

theorem splitNL_joinNL_nl :
    ∀ (L : List Str), L ≠ [] → (∀ l ∈ L, '\n' ∉ l) →
      splitNL (joinNL L ++ ['\n']) = L ++ [[]]
  | [], h, _ => absurd rfl h
  | [l], _, h => by
    have := splitNL_append_nl l [] (h l (List.mem_singleton_self l))
    simpa [joinNL, splitNL] using this
  | l :: l' :: ls, _, h => by
    have hl : '\n' ∉ l := h l (List.mem_cons_self _ _)
    have hrest : ∀ m ∈ l' :: ls, '\n' ∉ m := fun m hm => h m (List.mem_cons_of_mem _ hm)
    have ih := splitNL_joinNL_nl (l' :: ls) (List.cons_ne_nil _ _) hrest
    simp only [joinNL, List.append_assoc, List.cons_append]
    rw [splitNL_append_nl l _ hl]
    simp only [ih, List.cons_append]

theorem cr_not_mem_writeLines {L : List Str} (h : ∀ l ∈ L, '\r' ∉ l) :
    '\r' ∉ writeLines L := by
  unfold writeLines
  split
  · simp
  · intro hm
    rcases List.mem_append.1 hm with hm | hm
    · rcases mem_joinNL hm with hh | ⟨l, hl, hchl⟩
      · exact absurd hh (by decide)
      · exact h l hl hchl
    · simp only [List.mem_singleton] at hm
      exact absurd hm (by decide)

theorem pyStrip_nil : pyStrip [] = [] := rfl

theorem readLines_writeLines {L : List Str}
    (h : ∀ l ∈ L, pyStrip l ≠ [] ∧ '\n' ∉ l ∧ '\r' ∉ l) :
    readLines (some (writeLines L)) = L := by
  by_cases hne : L = []
  · subst hne; rfl
  · have htr : translate (writeLines L) = writeLines L :=
      translate_of_not_mem (cr_not_mem_writeLines fun l hl => (h l hl).2.2)
    have hsplit : splitNL (writeLines L) = L ++ [[]] := by
      unfold writeLines
      rw [if_neg hne]
      exact splitNL_joinNL_nl L hne fun l hl => (h l hl).2.1
    simp only [readLines]
    rw [htr, hsplit, List.filter_append]
    have h1 : L.filter (fun l => !(pyStrip l).isEmpty) = L :=
      List.filter_eq_self.mpr fun l hl => by
        simp [List.isEmpty_iff, (h l hl).1]
    have h2 : List.filter (fun l => !(pyStrip l).isEmpty) [([] : Str)] = [] := by
      simp [pyStrip_nil]
    rw [h1, h2, List.append_nil]

theorem readLines_props {c : Option Str} {e : Str} (he : e ∈ readLines c) :
    pyStrip e ≠ [] ∧ '\n' ∉ e ∧ '\r' ∉ e := by
  match c with
  | none => simp [readLines] at he
  | some s =>
    simp only [readLines] at he
    have hmem := List.mem_filter.1 he
    refine ⟨?_, nl_not_mem_of_mem_splitNL hmem.1, ?_⟩
    · have := hmem.2
      simpa [List.isEmpty_iff] using this
    · intro hcr
      exact cr_not_mem_translate s (mem_of_mem_splitNL hmem.1 hcr)

theorem mem_dropWhile_of_not {p : Char → Bool} :
    ∀ {l : Str} {c : Char}, c ∈ l → p c = false → c ∈ l.dropWhile p
  | a :: t, c, hc, hp => by
    rw [List.dropWhile_cons]
    by_cases ha : p a
    · rw [if_pos ha]
      rcases List.mem_cons.1 hc with h | h
      · subst h; rw [hp] at ha; exact absurd ha (by simp)
      · exact mem_dropWhile_of_not h hp
    · rw [if_neg ha]
      exact hc

theorem pyStrip_ne_nil_of_mem {s : Str} {c : Char} (hc : c ∈ s)
    (hp : pySpace c = false) : pyStrip s ≠ [] := by
  unfold pyStrip
  intro h
  rw [List.reverse_eq_nil_iff] at h
  have hc1 : c ∈ s.dropWhile pySpace := mem_dropWhile_of_not hc hp
  have hc2 : c ∈ (s.dropWhile pySpace).reverse := List.mem_reverse.2 hc1
  have hc3 := mem_dropWhile_of_not hc2 hp
  rw [h] at hc3
  simp at hc3

theorem exists_not_space_of_pyStrip_ne_nil {s : Str} (h : pyStrip s ≠ []) :
    ∃ c ∈ pyStrip s, pySpace c = false := by
  unfold pyStrip at h ⊢
  set u := (s.dropWhile pySpace).reverse.dropWhile pySpace with hu
  have hu_ne : u ≠ [] := by
    intro hh
    rw [hh] at h
    exact h rfl
  obtain ⟨c, u', hcu⟩ := List.exists_cons_of_ne_nil hu_ne
  have hhead : u.head? = some c := by rw [hcu]; rfl
  have hp := List.head?_dropWhile_not pySpace ((s.dropWhile pySpace).reverse)
  rw [← hu, hhead] at hp
  refine ⟨c, ?_, hp⟩
  rw [List.mem_reverse]
  exact hcu ▸ List.mem_cons_self _ _

theorem pyStrip_pyStrip_ne_nil {s : Str} (h : pyStrip s ≠ []) :
    pyStrip (pyStrip s) ≠ [] := by
  obtain ⟨c, hc, hp⟩ := exists_not_space_of_pyStrip_ne_nil h
  exact pyStrip_ne_nil_of_mem hc hp

/-! ### Lemmas about the store state -/

theorem lookupFile_putFile :
    ∀ (fs : List (Str × Str)) (name c : Str),
      lookupFile (putFile fs name c) name = some c
  | [], name, c => by simp [putFile, lookupFile]
  | (n, c0) :: rest, name, c => by
    by_cases h : n = name
    · simp [putFile, lookupFile, h]
    · simp [putFile, lookupFile, h, lookupFile_putFile rest name c]

theorem doBackup_files (sys : Sys) (name : Str) :
    (doBackup sys name).files = sys.files := by
  unfold doBackup
  cases lookupFile sys.files name <;> rfl

theorem appendLog_files (sys : Sys) (name action oldValue newValue : Str) :
    (appendLog sys name action oldValue newValue).files = sys.files := rfl

theorem entriesOf_doBackup (sys : Sys) (name name' : Str) :
    entriesOf (doBackup sys name) name' = entriesOf sys name' := by
  unfold entriesOf
  rw [doBackup_files]

/-! ### Inversion principles for successful mutations -/

theorem addEntry_ok {sys : Sys} {name raw : Str} {logOk : Bool} {sys' : Sys}
    {idx : Nat} {v : Str}
    (h : addEntry sys name raw logOk = (sys', .ok (idx, v))) :
    validFilename name = true ∧ v = pyStrip raw ∧ pyStrip raw ≠ [] ∧
      pyStrip raw ∉ entriesOf sys name ∧ logOk = true ∧
      idx = (entriesOf sys name).length ∧
      sys'.files = putFile sys.files name
        (writeLines (entriesOf sys name ++ [pyStrip raw])) := by
  unfold addEntry at h
  by_cases h1 : validFilename name
  case neg => simp [h1] at h
  case pos =>
  simp only [h1, Bool.not_true, Bool.false_eq_true, if_false] at h
  by_cases h2 : pyStrip raw = []
  case pos => simp [h2] at h
  case neg =>
  rw [if_neg h2] at h
  rw [show readLines (lookupFile (doBackup sys name).files name) = entriesOf sys name by
    rw [doBackup_files]; rfl] at h
  by_cases h3 : pyStrip raw ∈ entriesOf sys name
  case pos => simp [h3] at h
  case neg =>
  rw [if_neg h3] at h
  cases logOk with
  | false => simp at h
  | true =>
    simp only [if_true] at h
    obtain ⟨hsys, hres⟩ := Prod.mk.injEq .. ▸ h
    obtain ⟨hidx, hv⟩ : idx = (entriesOf sys name ++ [pyStrip raw]).length - 1 ∧
        v = pyStrip raw := by
      have := hres
      simp only [Except.ok.injEq, Prod.mk.injEq] at this
      exact ⟨this.1.symm, this.2.symm⟩
    refine ⟨h1, hv, h2, h3, rfl, ?_, ?_⟩
    · rw [hidx]
      simp
    · rw [← hsys, appendLog_files, doBackup_files]

theorem updateEntry_ok {sys : Sys} {name : Str} {index : Int} {raw : Str}
    {logOk : Bool} {sys' : Sys} {oldv newv : Str}
    (h : updateEntry sys name index raw logOk = (sys', .ok (oldv, newv))) :
    validFilename name = true ∧ newv = pyStrip raw ∧ pyStrip raw ≠ [] ∧
      logOk = true ∧
      ∃ i : Nat, (i : Int) = index ∧ i < (entriesOf sys name).length ∧
        oldv = (entriesOf sys name).getD i [] ∧
        (pyStrip raw ∉ entriesOf sys name ∨
          (entriesOf sys name).indexOf (pyStrip raw) = i) ∧
        sys'.files = putFile sys.files name
          (writeLines ((entriesOf sys name).set i (pyStrip raw))) := by
  unfold updateEntry at h
  by_cases h1 : validFilename name
  case neg => simp [h1] at h
  case pos =>
  simp only [h1, Bool.not_true, Bool.false_eq_true, if_false] at h
  cases hl : lookupFile sys.files name with
  | none => rw [hl] at h; simp at h
  | some c0 =>
  rw [hl] at h
  by_cases h2 : pyStrip raw = []
  case pos => simp [h2] at h
  case neg =>
  rw [if_neg h2] at h
  rw [show readLines (lookupFile (doBackup sys name).files name) = entriesOf sys name by
    rw [doBackup_files]; rfl] at h
  by_cases h3 : index < 0 ∨ ((entriesOf sys name).length : Int) ≤ index
  case pos => rw [if_pos h3] at h; simp at h
  case neg =>
  rw [if_neg h3] at h
  push_neg at h3
  have hi0 : 0 ≤ index := h3.1
  have hilt : index < ((entriesOf sys name).length : Int) := h3.2
  by_cases h4 : pyStrip raw ∈ entriesOf sys name ∧
      ((entriesOf sys name).indexOf (pyStrip raw) : Int) ≠ index
  case pos => rw [if_pos h4] at h; simp at h
  case neg =>
  rw [if_neg h4] at h
  cases logOk with
  | false => simp at h
  | true =>
    simp only [if_true] at h
    obtain ⟨hsys, hres⟩ := Prod.mk.injEq .. ▸ h
    simp only [Except.ok.injEq, Prod.mk.injEq] at hres
    refine ⟨h1, hres.2.symm, h2, rfl, index.toNat, Int.toNat_of_nonneg hi0, ?_,
      hres.1.symm, ?_, ?_⟩
    · omega
    · rcases Decidable.not_and_iff_or_not.1 h4 with h5 | h5
      · exact Or.inl h5
      · right
        push_neg at h5
        omega
    · rw [← hsys, appendLog_files, doBackup_files]

theorem deleteEntry_ok {sys : Sys} {name : Str} {index : Int} {logOk : Bool}
    {sys' : Sys} {dv : Str}
    (h : deleteEntry sys name index logOk = (sys', .ok dv)) :
    validFilename name = true ∧ logOk = true ∧
      ∃ i : Nat, (i : Int) = index ∧ i < (entriesOf sys name).length ∧
        dv = (entriesOf sys name).getD i [] ∧
        sys'.files = putFile sys.files name
          (writeLines ((entriesOf sys name).eraseIdx i)) := by
  unfold deleteEntry at h
  by_cases h1 : validFilename name
  case neg => simp [h1] at h
  case pos =>
  simp only [h1, Bool.not_true, Bool.false_eq_true, if_false] at h
  cases hl : lookupFile sys.files name with
  | none => rw [hl] at h; simp at h
  | some c0 =>
  rw [hl] at h
  rw [show readLines (lookupFile (doBackup sys name).files name) = entriesOf sys name by
    rw [doBackup_files]; rfl] at h
  by_cases h3 : index < 0 ∨ ((entriesOf sys name).length : Int) ≤ index
  case pos => rw [if_pos h3] at h; simp at h
  case neg =>
  rw [if_neg h3] at h
  push_neg at h3
  cases logOk with
  | false => simp at h
  | true =>
    simp only [if_true] at h
    obtain ⟨hsys, hres⟩ := Prod.mk.injEq .. ▸ h
    simp only [Except.ok.injEq] at hres
    refine ⟨h1, rfl, index.toNat, Int.toNat_of_nonneg h3.1, ?_, hres.symm, ?_⟩
    · omega
    · rw [← hsys, appendLog_files, doBackup_files]

theorem entriesOf_props {sys : Sys} {name : Str} :
    ∀ e ∈ entriesOf sys name, pyStrip e ≠ [] ∧ '\n' ∉ e ∧ '\r' ∉ e :=
  fun _ he => readLines_props he

theorem indexOf_self_getElem? :
    ∀ {L : List Str} {v : Str}, v ∈ L →
      L.indexOf v < L.length ∧ L[L.indexOf v]? = some v
  | a :: t, v, hv => by
    rw [List.indexOf_cons]
    by_cases hav : (a == v) = true
    · simp only [hav, cond_true]
      exact ⟨Nat.succ_pos _, by simp [eq_of_beq hav]⟩
    · simp only [Bool.not_eq_true] at hav
      simp only [hav, cond_false]
      have hvt : v ∈ t := by
        rcases List.mem_cons.1 hv with h | h
        · subst h
          simp at hav
        · exact h
      obtain ⟨ih1, ih2⟩ := indexOf_self_getElem? hvt
      refine ⟨?_, by simpa using ih2⟩
      simp only [List.length_cons]
      omega

theorem set_getElem?_eq_self {α : Type} {L : List α} {i : Nat} {v : α}
    (hi : i < L.length) (hv : L[i]? = some v) : L.set i v = L := by
  apply List.ext_getElem?
  intro n
  by_cases hn : i = n
  · subst hn
    rw [List.getElem?_set_self hi, hv]
  · rw [List.getElem?_set_ne hn]

theorem entriesOf_after_write {sys : Sys} {name : Str} {L : List Str} (sys1 : Sys)
    (h : ∀ l ∈ L, pyStrip l ≠ [] ∧ '\n' ∉ l ∧ '\r' ∉ l) :
    entriesOf { sys1 with files := putFile sys.files name (writeLines L) } name = L := by
  unfold entriesOf
  simp only [lookupFile_putFile]
  exact readLines_writeLines h

/-! ### The claims -/

/-- C1, counterexample to the claim as stated: the list state with the
single raw entry `" a"` (file content `" a\n"`) satisfies the stated
invariant (entries pairwise distinct after trimming, non-empty after
trimming), and adding the value `"a"` succeeds — the duplicate check
compares the trimmed value against the raw stored lines, so `"a"` is not
seen as a duplicate of `" a"` — yet the resulting state has two entries
that are equal after trimming, violating the stated invariant. -/
theorem C1_counterexample :
    listInvStated (entriesOf ⟨[(("a.txt").toList, (" a\n").toList)], [], []⟩
      (("a.txt").toList)) ∧
    (addEntry ⟨[(("a.txt").toList, (" a\n").toList)], [], []⟩ (("a.txt").toList)
      (("a").toList) true).2 = .ok (1, ("a").toList) ∧
    ¬ listInvStated (entriesOf
      (addEntry ⟨[(("a.txt").toList, (" a\n").toList)], [], []⟩ (("a.txt").toList)
        (("a").toList) true).1 (("a.txt").toList)) := by
  decide

/-- C1 (amended): the invariant the code preserves has distinctness taken
on the raw stored entries (not modulo trimming), and the mutating value
must stay a single line after trimming (an embedded line terminator makes
the appended or replacing value split into several entries on the next
read).  Under that invariant — entries pairwise distinct, none blank —
every successful `add_entry`, `update_entry` and `delete_entry` yields a
state satisfying it again, and blank lines are never materialized
(`entriesOf` never contains a blank entry, by `readLines_props`). -/
theorem C1_inv_preserved (sys : Sys) (name : Str) (index : Int) (raw : Str)
    (logOk : Bool) (hinv : listInvRaw (entriesOf sys name)) :
    ('\n' ∉ pyStrip raw → '\r' ∉ pyStrip raw →
      ∀ sys' idx v, addEntry sys name raw logOk = (sys', .ok (idx, v)) →
        listInvRaw (entriesOf sys' name)) ∧
    ('\n' ∉ pyStrip raw → '\r' ∉ pyStrip raw →
      ∀ sys' oldv newv, updateEntry sys name index raw logOk = (sys', .ok (oldv, newv)) →
        listInvRaw (entriesOf sys' name)) ∧
    (∀ sys' dv, deleteEntry sys name index logOk = (sys', .ok dv) →
      listInvRaw (entriesOf sys' name)) := by
  refine ⟨?_, ?_, ?_⟩
  · intro hNL hCR sys' idx v h
    obtain ⟨_, _, hne, hnm, _, _, hfiles⟩ := addEntry_ok h
    have hmem : ∀ l ∈ entriesOf sys name ++ [pyStrip raw],
        pyStrip l ≠ [] ∧ '\n' ∉ l ∧ '\r' ∉ l := by
      intro l hl
      rcases List.mem_append.1 hl with hl | hl
      · exact entriesOf_props l hl
      · rw [List.mem_singleton] at hl
        subst hl
        exact ⟨pyStrip_pyStrip_ne_nil hne, hNL, hCR⟩
    have hE : entriesOf sys' name = entriesOf sys name ++ [pyStrip raw] := by
      unfold entriesOf
      rw [hfiles, lookupFile_putFile]
      exact readLines_writeLines hmem
    rw [hE]
    constructor
    · exact hinv.1.append (List.nodup_singleton _) (List.disjoint_singleton.2 hnm)
    · intro e he
      exact (hmem e he).1
  · intro hNL hCR sys' oldv newv h
    obtain ⟨_, _, hne, _, i, _, hi, _, hdup, hfiles⟩ := updateEntry_ok h
    have hmem : ∀ l ∈ (entriesOf sys name).set i (pyStrip raw),
        pyStrip l ≠ [] ∧ '\n' ∉ l ∧ '\r' ∉ l := by
      intro l hl
      rcases List.mem_or_eq_of_mem_set hl with hl | hl
      · exact entriesOf_props l hl
      · subst hl
        exact ⟨pyStrip_pyStrip_ne_nil hne, hNL, hCR⟩
    have hE : entriesOf sys' name = (entriesOf sys name).set i (pyStrip raw) := by
      unfold entriesOf
      rw [hfiles, lookupFile_putFile]
      exact readLines_writeLines hmem
    rw [hE]
    refine ⟨?_, fun e he => (hmem e he).1⟩
    by_cases hv : pyStrip raw ∈ entriesOf sys name
    · rcases hdup with hdup | hdup
      · exact absurd hv hdup
      · have hget : (entriesOf sys name)[i]? = some (pyStrip raw) := by
          rw [← hdup]
          exact (indexOf_self_getElem? hv).2
        rw [set_getElem?_eq_self hi hget]
        exact hinv.1
    · exact hinv.1.set hv
  · intro sys' dv h
    obtain ⟨_, _, i, _, hi, _, hfiles⟩ := deleteEntry_ok h
    have hmem : ∀ l ∈ (entriesOf sys name).eraseIdx i,
        pyStrip l ≠ [] ∧ '\n' ∉ l ∧ '\r' ∉ l :=
      fun l hl => entriesOf_props l ((List.eraseIdx_sublist _ i).subset hl)
    have hE : entriesOf sys' name = (entriesOf sys name).eraseIdx i := by
      unfold entriesOf
      rw [hfiles, lookupFile_putFile]
      exact readLines_writeLines hmem
    rw [hE]
    exact ⟨hinv.1.eraseIdx i, fun e he => (hmem e he).1⟩

/-- C1, witness: a concrete successful add on a list satisfying the
(amended) invariant, whose result again satisfies it. -/
theorem C1_witness :
    listInvRaw (entriesOf
      (addEntry ⟨[(("a.txt").toList, ("a\n").toList)], [], []⟩ (("a.txt").toList)
        (("b").toList) true).1 (("a.txt").toList)) := by
  have h := (C1_inv_preserved ⟨[(("a.txt").toList, ("a\n").toList)], [], []⟩
    (("a.txt").toList) 0 (("b").toList) true (by decide)).1
  refine h (by decide) (by decide)
    (addEntry ⟨[(("a.txt").toList, ("a\n").toList)], [], []⟩ (("a.txt").toList)
      (("b").toList) true).1 1 (("b").toList) ?_
  have h2 : (addEntry ⟨[(("a.txt").toList, ("a\n").toList)], [], []⟩
      (("a.txt").toList) (("b").toList) true).2 = .ok (1, ("b").toList) := by decide
  calc addEntry ⟨[(("a.txt").toList, ("a\n").toList)], [], []⟩ (("a.txt").toList)
        (("b").toList) true
      = ((addEntry ⟨[(("a.txt").toList, ("a\n").toList)], [], []⟩ (("a.txt").toList)
          (("b").toList) true).1,
         (addEntry ⟨[(("a.txt").toList, ("a\n").toList)], [], []⟩ (("a.txt").toList)
          (("b").toList) true).2) := rfl
    _ = _ := by rw [h2]

/-- C2, counterexample to the claim as stated: the raw value `"a\nb"` is
(after trimming) distinct from every entry of the empty list `a.txt`, so
by the claim the add should succeed and increase the length by exactly 1;
the add does succeed, but the persisted value contains an embedded
newline, so the next read sees two entries — the length grows by 2 and
the appended string is not itself an entry. -/
theorem C2_counterexample :
    pyStrip (("a\nb").toList) ∉ entriesOf emptySys (("a.txt").toList) ∧
    (addEntry emptySys (("a.txt").toList) (("a\nb").toList) true).2
      = .ok (0, ("a\nb").toList) ∧
    (entriesOf (addEntry emptySys (("a.txt").toList) (("a\nb").toList) true).1
      (("a.txt").toList)).length = 2 := by
  decide

/-- C2 (amended): for every valid name and raw value, if the trimmed value
equals an existing raw entry then add fails with `DuplicateEntry` and the
list is unchanged; if the trimmed value is non-empty, contains no line
terminator, and differs from every existing entry, then add succeeds,
appends it, and returns the new entry's index, which equals the prior
length.  (The claim's success branch additionally needs the value to be
non-blank — otherwise `EmptyEntry` — and single-line, as the
counterexample shows.) -/
theorem C2_add (sys : Sys) (name raw : Str) (hname : validFilename name = true) :
    (pyStrip raw ∈ entriesOf sys name →
      addEntry sys name raw true = (doBackup sys name, .error .DuplicateEntry) ∧
      entriesOf (addEntry sys name raw true).1 name = entriesOf sys name) ∧
    (pyStrip raw ≠ [] → '\n' ∉ pyStrip raw → '\r' ∉ pyStrip raw →
      pyStrip raw ∉ entriesOf sys name →
      (addEntry sys name raw true).2 = .ok ((entriesOf sys name).length, pyStrip raw) ∧
      entriesOf (addEntry sys name raw true).1 name
        = entriesOf sys name ++ [pyStrip raw]) := by
  constructor
  · intro hmem
    have hne : pyStrip raw ≠ [] := by
      intro hh
      have hp := (entriesOf_props _ hmem).1
      rw [hh, pyStrip_nil] at hp
      exact hp rfl
    have heq : addEntry sys name raw true = (doBackup sys name, .error .DuplicateEntry) := by
      unfold addEntry
      simp only [hname, Bool.not_true, Bool.false_eq_true, if_false]
      rw [if_neg hne]
      rw [show readLines (lookupFile (doBackup sys name).files name) = entriesOf sys name by
        rw [doBackup_files]; rfl]
      rw [if_pos hmem]
    refine ⟨heq, ?_⟩
    rw [heq]
    exact entriesOf_doBackup ..
  · intro hne hNL hCR hnm
    have hmem2 : ∀ l ∈ entriesOf sys name ++ [pyStrip raw],
        pyStrip l ≠ [] ∧ '\n' ∉ l ∧ '\r' ∉ l := by
      intro l hl
      rcases List.mem_append.1 hl with hl | hl
      · exact entriesOf_props l hl
      · rw [List.mem_singleton] at hl
        subst hl
        exact ⟨pyStrip_pyStrip_ne_nil hne, hNL, hCR⟩
    have heq : addEntry sys name raw true =
        (appendLog { doBackup sys name with
            files := putFile (doBackup sys name).files name
              (writeLines (entriesOf sys name ++ [pyStrip raw])) }
          name ['A', 'D', 'D'] [] (pyStrip raw),
         .ok ((entriesOf sys name ++ [pyStrip raw]).length - 1, pyStrip raw)) := by
      unfold addEntry
      simp only [hname, Bool.not_true, Bool.false_eq_true, if_false]
      rw [if_neg hne]
      rw [show readLines (lookupFile (doBackup sys name).files name) = entriesOf sys name by
        rw [doBackup_files]; rfl]
      rw [if_neg hnm]
      simp
    constructor
    · rw [heq]
      simp
    · rw [heq]
      show entriesOf { doBackup sys name with
          files := putFile (doBackup sys name).files name
            (writeLines (entriesOf sys name ++ [pyStrip raw])) } name = _
      unfold entriesOf
      simp only
      rw [doBackup_files, lookupFile_putFile]
      exact readLines_writeLines hmem2

/-- C2, witness: on a list holding `["a"]`, adding `"b"` returns index 1
with the trimmed value and the read-back entries are `["a", "b"]`. -/
theorem C2_witness :
    (addEntry ⟨[(("a.txt").toList, ("a\n").toList)], [], []⟩ (("a.txt").toList)
      (("b").toList) true).2
      = .ok ((entriesOf ⟨[(("a.txt").toList, ("a\n").toList)], [], []⟩
          (("a.txt").toList)).length, pyStrip (("b").toList)) ∧
    entriesOf (addEntry ⟨[(("a.txt").toList, ("a\n").toList)], [], []⟩
        (("a.txt").toList) (("b").toList) true).1 (("a.txt").toList)
      = entriesOf ⟨[(("a.txt").toList, ("a\n").toList)], [], []⟩ (("a.txt").toList)
        ++ [pyStrip (("b").toList)] :=
  (C2_add ⟨[(("a.txt").toList, ("a\n").toList)], [], []⟩ (("a.txt").toList)
    (("b").toList) (by decide)).2 (by decide) (by decide) (by decide) (by decide)

/-- C3, counterexample to the claim as stated: on the list `["x"]`, the
update of index 0 to the non-duplicate value `"a\nb"` succeeds, but the
following read does not show index 0 holding the trimmed value — the
embedded newline splits it into the two entries `"a"` and `"b"` — and the
other indices are not unchanged either (the length grew). -/
theorem C3_counterexample :
    (updateEntry ⟨[(("a.txt").toList, ("x\n").toList)], [], []⟩ (("a.txt").toList)
      0 (("a\nb").toList) true).2 = .ok (("x").toList, ("a\nb").toList) ∧
    pyStrip (("a\nb").toList) = ("a\nb").toList ∧
    (entriesOf (updateEntry ⟨[(("a.txt").toList, ("x\n").toList)], [], []⟩
      (("a.txt").toList) 0 (("a\nb").toList) true).1 (("a.txt").toList))[0]?
      ≠ some (pyStrip (("a\nb").toList)) ∧
    (entriesOf (updateEntry ⟨[(("a.txt").toList, ("x\n").toList)], [], []⟩
      (("a.txt").toList) 0 (("a\nb").toList) true).1 (("a.txt").toList)).length
      ≠ (entriesOf ⟨[(("a.txt").toList, ("x\n").toList)], [], []⟩
        (("a.txt").toList)).length := by
  decide

/-- C3 (amended): for every successful `update_entry` whose trimmed value
contains no line terminator, the subsequent read shows the updated index
holding exactly the trimmed value, and every other index holds exactly
the value it held before (the new entry list is `set i (pyStrip raw)` of
the old one). -/
theorem C3_update_frame (sys : Sys) (name : Str) (index : Int) (raw : Str)
    (sys' : Sys) (oldv newv : Str)
    (hNL : '\n' ∉ pyStrip raw) (hCR : '\r' ∉ pyStrip raw)
    (h : updateEntry sys name index raw true = (sys', .ok (oldv, newv))) :
    newv = pyStrip raw ∧
    ∃ i : Nat, (i : Int) = index ∧ i < (entriesOf sys name).length ∧
      entriesOf sys' name = (entriesOf sys name).set i (pyStrip raw) ∧
      (entriesOf sys' name).length = (entriesOf sys name).length ∧
      (entriesOf sys' name)[i]? = some (pyStrip raw) ∧
      ∀ j : Nat, j ≠ i → (entriesOf sys' name)[j]? = (entriesOf sys name)[j]? := by
  obtain ⟨_, hnew, hne, _, i, hii, hi, _, _, hfiles⟩ := updateEntry_ok h
  have hmem : ∀ l ∈ (entriesOf sys name).set i (pyStrip raw),
      pyStrip l ≠ [] ∧ '\n' ∉ l ∧ '\r' ∉ l := by
    intro l hl
    rcases List.mem_or_eq_of_mem_set hl with hl | hl
    · exact entriesOf_props l hl
    · subst hl
      exact ⟨pyStrip_pyStrip_ne_nil hne, hNL, hCR⟩
  have hE : entriesOf sys' name = (entriesOf sys name).set i (pyStrip raw) := by
    unfold entriesOf
    rw [hfiles, lookupFile_putFile]
    exact readLines_writeLines hmem
  refine ⟨hnew, i, hii, hi, hE, ?_, ?_, ?_⟩
  · rw [hE, List.length_set]
  · rw [hE]
    exact List.getElem?_set_self hi
  · intro j hj
    rw [hE]
    exact List.getElem?_set_ne (fun hh => hj hh.symm)

/-- C3, witness: updating index 0 of `["x", "y"]` to `"z"` leaves index 1
unchanged and puts `"z"` at index 0. -/
theorem C3_witness :
    ("z").toList = pyStrip (("z").toList) ∧
    ∃ i : Nat, (i : Int) = 0 ∧
      i < (entriesOf ⟨[(("a.txt").toList, ("x\ny\n").toList)], [], []⟩
        (("a.txt").toList)).length ∧
      entriesOf (updateEntry ⟨[(("a.txt").toList, ("x\ny\n").toList)], [], []⟩
          (("a.txt").toList) 0 (("z").toList) true).1 (("a.txt").toList)
        = (entriesOf ⟨[(("a.txt").toList, ("x\ny\n").toList)], [], []⟩
            (("a.txt").toList)).set i (pyStrip (("z").toList)) ∧
      (entriesOf (updateEntry ⟨[(("a.txt").toList, ("x\ny\n").toList)], [], []⟩
          (("a.txt").toList) 0 (("z").toList) true).1 (("a.txt").toList)).length
        = (entriesOf ⟨[(("a.txt").toList, ("x\ny\n").toList)], [], []⟩
            (("a.txt").toList)).length ∧
      (entriesOf (updateEntry ⟨[(("a.txt").toList, ("x\ny\n").toList)], [], []⟩
          (("a.txt").toList) 0 (("z").toList) true).1 (("a.txt").toList))[i]?
        = some (pyStrip (("z").toList)) ∧
      ∀ j : Nat, j ≠ i →
        (entriesOf (updateEntry ⟨[(("a.txt").toList, ("x\ny\n").toList)], [], []⟩
            (("a.txt").toList) 0 (("z").toList) true).1 (("a.txt").toList))[j]?
          = (entriesOf ⟨[(("a.txt").toList, ("x\ny\n").toList)], [], []⟩
              (("a.txt").toList))[j]? := by
  refine C3_update_frame ⟨[(("a.txt").toList, ("x\ny\n").toList)], [], []⟩
    (("a.txt").toList) 0 (("z").toList)
    (updateEntry ⟨[(("a.txt").toList, ("x\ny\n").toList)], [], []⟩
      (("a.txt").toList) 0 (("z").toList) true).1
    (("x").toList) (("z").toList) (by decide) (by decide) ?_
  have h2 : (updateEntry ⟨[(("a.txt").toList, ("x\ny\n").toList)], [], []⟩
      (("a.txt").toList) 0 (("z").toList) true).2
      = .ok (("x").toList, ("z").toList) := by decide
  calc updateEntry ⟨[(("a.txt").toList, ("x\ny\n").toList)], [], []⟩
        (("a.txt").toList) 0 (("z").toList) true
      = ((updateEntry ⟨[(("a.txt").toList, ("x\ny\n").toList)], [], []⟩
          (("a.txt").toList) 0 (("z").toList) true).1,
         (updateEntry ⟨[(("a.txt").toList, ("x\ny\n").toList)], [], []⟩
          (("a.txt").toList) 0 (("z").toList) true).2) := rfl
    _ = _ := by rw [h2]

/-- C4: for every list whose entries are pairwise distinct (the data-model
invariant) a successful `delete_entry` returns the value formerly at the
requested index, the read-back length drops by exactly 1, entries before
the index are unchanged, every entry formerly at `j > i` sits at `j - 1`,
and the deleted value no longer sits at position `i`. -/
theorem C4_delete (sys : Sys) (name : Str) (index : Int) (sys' : Sys) (dv : Str)
    (hnodup : (entriesOf sys name).Nodup)
    (h : deleteEntry sys name index true = (sys', .ok dv)) :
    ∃ i : Nat, (i : Int) = index ∧ i < (entriesOf sys name).length ∧
      (entriesOf sys name)[i]? = some dv ∧
      (entriesOf sys' name).length = (entriesOf sys name).length - 1 ∧
      (∀ j : Nat, j < i → (entriesOf sys' name)[j]? = (entriesOf sys name)[j]?) ∧
      (∀ j : Nat, i ≤ j → (entriesOf sys' name)[j]? = (entriesOf sys name)[j + 1]?) ∧
      (entriesOf sys' name)[i]? ≠ some dv := by
  obtain ⟨_, _, i, hii, hi, hdv, hfiles⟩ := deleteEntry_ok h
  have hmem : ∀ l ∈ (entriesOf sys name).eraseIdx i,
      pyStrip l ≠ [] ∧ '\n' ∉ l ∧ '\r' ∉ l :=
    fun l hl => entriesOf_props l ((List.eraseIdx_sublist _ i).subset hl)
  have hE : entriesOf sys' name = (entriesOf sys name).eraseIdx i := by
    unfold entriesOf
    rw [hfiles, lookupFile_putFile]
    exact readLines_writeLines hmem
  have hgd : (entriesOf sys name)[i]? = some dv := by
    rw [hdv]
    simp [List.getElem?_eq_getElem hi]
  refine ⟨i, hii, hi, hgd, ?_, ?_, ?_, ?_⟩
  · rw [hE, List.length_eraseIdx_of_lt hi]
  · intro j hj
    rw [hE]
    exact List.getElem?_eraseIdx_of_lt _ _ _ hj
  · intro j hj
    rw [hE]
    exact List.getElem?_eraseIdx_of_ge _ _ _ hj
  · rw [hE, List.getElem?_eraseIdx_of_ge _ _ _ (Nat.le_refl i)]
    by_cases hlast : i + 1 < (entriesOf sys name).length
    · have := List.nodup_iff_getElem?_ne_getElem?.1 hnodup i (i + 1) (Nat.lt_succ_self i) hlast
      rw [hgd] at this
      exact fun hh => this hh.symm
    · rw [List.getElem?_eq_none (by omega)]
      exact fun hh => Option.noConfusion hh

/-- C4, witness: deleting index 0 of `["x", "y"]` returns `"x"`, leaves
`["y"]`, shifts the former index 1 to index 0, and `"x"` is gone from
position 0. -/
theorem C4_witness :
    ∃ i : Nat, (i : Int) = 0 ∧
      i < (entriesOf ⟨[(("a.txt").toList, ("x\ny\n").toList)], [], []⟩
        (("a.txt").toList)).length ∧
      (entriesOf ⟨[(("a.txt").toList, ("x\ny\n").toList)], [], []⟩
        (("a.txt").toList))[i]? = some (("x").toList) ∧
      (entriesOf (deleteEntry ⟨[(("a.txt").toList, ("x\ny\n").toList)], [], []⟩
          (("a.txt").toList) 0 true).1 (("a.txt").toList)).length
        = (entriesOf ⟨[(("a.txt").toList, ("x\ny\n").toList)], [], []⟩
            (("a.txt").toList)).length - 1 ∧
      (∀ j : Nat, j < i →
        (entriesOf (deleteEntry ⟨[(("a.txt").toList, ("x\ny\n").toList)], [], []⟩
            (("a.txt").toList) 0 true).1 (("a.txt").toList))[j]?
          = (entriesOf ⟨[(("a.txt").toList, ("x\ny\n").toList)], [], []⟩
              (("a.txt").toList))[j]?) ∧
      (∀ j : Nat, i ≤ j →
        (entriesOf (deleteEntry ⟨[(("a.txt").toList, ("x\ny\n").toList)], [], []⟩
            (("a.txt").toList) 0 true).1 (("a.txt").toList))[j]?
          = (entriesOf ⟨[(("a.txt").toList, ("x\ny\n").toList)], [], []⟩
              (("a.txt").toList))[j + 1]?) ∧
      (entriesOf (deleteEntry ⟨[(("a.txt").toList, ("x\ny\n").toList)], [], []⟩
          (("a.txt").toList) 0 true).1 (("a.txt").toList))[i]?
        ≠ some (("x").toList) := by
  refine C4_delete ⟨[(("a.txt").toList, ("x\ny\n").toList)], [], []⟩
    (("a.txt").toList) 0
    (deleteEntry ⟨[(("a.txt").toList, ("x\ny\n").toList)], [], []⟩
      (("a.txt").toList) 0 true).1 (("x").toList) (by decide) ?_
  have h2 : (deleteEntry ⟨[(("a.txt").toList, ("x\ny\n").toList)], [], []⟩
      (("a.txt").toList) 0 true).2 = .ok (("x").toList) := by decide
  calc deleteEntry ⟨[(("a.txt").toList, ("x\ny\n").toList)], [], []⟩
        (("a.txt").toList) 0 true
      = ((deleteEntry ⟨[(("a.txt").toList, ("x\ny\n").toList)], [], []⟩
          (("a.txt").toList) 0 true).1,
         (deleteEntry ⟨[(("a.txt").toList, ("x\ny\n").toList)], [], []⟩
          (("a.txt").toList) 0 true).2) := rfl
    _ = _ := by rw [h2]

/-- C5, counterexample to the claim as stated: exporting the valid but
absent list `a.txt` does not return empty content — `export_file` raises
404 ("File not found") when the file does not exist. -/
theorem C5_counterexample :
    exportFile emptySys (("a.txt").toList) = .error .NotFound ∧
    exportFile emptySys (("a.txt").toList) ≠ .ok [] := by
  decide

/-- C5 (amended): for a valid name, export fails with `NotFound` when the
file is absent; for an existing file it returns the current content read
in text mode with no line filtering or trimming — byte-exact whenever the
content contains no carriage return (text-mode reading performs
universal-newline translation, which is the identity on such content, and
in particular on everything `write_file_lines` produces from single-line
values). -/
theorem C5_export (sys : Sys) (name : Str) (hname : validFilename name = true) :
    (lookupFile sys.files name = none → exportFile sys name = .error .NotFound) ∧
    (∀ c, lookupFile sys.files name = some c →
      exportFile sys name = .ok (translate c) ∧
      ('\r' ∉ c → exportFile sys name = .ok c)) := by
  constructor
  · intro habs
    unfold exportFile
    simp [hname, habs]
  · intro c hc
    have he : exportFile sys name = .ok (translate c) := by
      unfold exportFile
      simp [hname, hc]
    exact ⟨he, fun hcr => by rw [he, translate_of_not_mem hcr]⟩

/-- C5, witness: exporting a list whose file holds `"a\n"` returns exactly
`"a\n"`. -/
theorem C5_witness :
    exportFile ⟨[(("a.txt").toList, ("a\n").toList)], [], []⟩ (("a.txt").toList)
      = .ok (("a\n").toList) :=
  ((C5_export ⟨[(("a.txt").toList, ("a\n").toList)], [], []⟩ (("a.txt").toList)
    (by decide)).2 (("a\n").toList) (by decide)).2 (by decide)

/-- C6, counterexample to the claim as stated: adding `"x"` to the absent
list `a.txt` with a failing ledger append leaves the file rewritten to
`"x\n"` (the mutation stood), yet the operation reports the logging
failure as its own failure instead of success — `log_change` is called
with no exception handling, so the error propagates to the caller. -/
theorem C6_counterexample :
    (addEntry emptySys (("a.txt").toList) (("x").toList) false).2
      = .error .IOFailure ∧
    lookupFile (addEntry emptySys (("a.txt").toList) (("x").toList) false).1.files
      (("a.txt").toList) = some (("x\n").toList) := by
  decide

/-- C6 (amended): when the audit-log write fails after the file change of
an add, update or delete has already been applied, the entry change
stands — the resulting file state is the same as in the run where logging
succeeds — but the operation does not report success: the logging failure
surfaces to the caller as the mutation's own failure (`IOFailure`). -/
theorem C6_log_failure (sys : Sys) (name : Str) (index : Int) (raw : Str) :
    (∀ sysT idx v, addEntry sys name raw true = (sysT, .ok (idx, v)) →
      (addEntry sys name raw false).1.files = sysT.files ∧
      (addEntry sys name raw false).2 = .error .IOFailure) ∧
    (∀ sysT oldv newv, updateEntry sys name index raw true = (sysT, .ok (oldv, newv)) →
      (updateEntry sys name index raw false).1.files = sysT.files ∧
      (updateEntry sys name index raw false).2 = .error .IOFailure) ∧
    (∀ sysT dv, deleteEntry sys name index true = (sysT, .ok dv) →
      (deleteEntry sys name index false).1.files = sysT.files ∧
      (deleteEntry sys name index false).2 = .error .IOFailure) := by
  refine ⟨?_, ?_, ?_⟩
  · intro sysT idx v h
    obtain ⟨h1, _, h2, h3, _, _, hfiles⟩ := addEntry_ok h
    have heq : addEntry sys name raw false =
        ({ doBackup sys name with
            files := putFile (doBackup sys name).files name
              (writeLines (entriesOf sys name ++ [pyStrip raw])) },
         .error .IOFailure) := by
      unfold addEntry
      simp only [h1, Bool.not_true, Bool.false_eq_true, if_false]
      rw [if_neg h2]
      rw [show readLines (lookupFile (doBackup sys name).files name) = entriesOf sys name by
        rw [doBackup_files]; rfl]
      rw [if_neg h3]
    rw [heq]
    refine ⟨?_, rfl⟩
    simp only
    rw [doBackup_files, hfiles]
  · intro sysT oldv newv h
    obtain ⟨h1, _, h2, _, i, hii, hi, _, hdup, hfiles⟩ := updateEntry_ok h
    have hlk : ∃ c0, lookupFile sys.files name = some c0 := by
      rcases hl : lookupFile sys.files name with _ | c0
      · exfalso
        unfold updateEntry at h
        simp [h1, hl] at h
      · exact ⟨c0, rfl⟩
    obtain ⟨c0, hc0⟩ := hlk
    have hb : ¬(index < 0 ∨ ((entriesOf sys name).length : Int) ≤ index) := by
      push_neg
      omega
    have hd : ¬(pyStrip raw ∈ entriesOf sys name ∧
        ((entriesOf sys name).indexOf (pyStrip raw) : Int) ≠ index) := by
      intro hh
      rcases hdup with h5 | h5
      · exact h5 hh.1
      · omega
    have heq : updateEntry sys name index raw false =
        ({ doBackup sys name with
            files := putFile (doBackup sys name).files name
              (writeLines ((entriesOf sys name).set index.toNat (pyStrip raw))) },
         .error .IOFailure) := by
      unfold updateEntry
      simp only [h1, Bool.not_true, Bool.false_eq_true, if_false]
      rw [hc0]
      rw [if_neg h2]
      rw [show readLines (lookupFile (doBackup sys name).files name) = entriesOf sys name by
        rw [doBackup_files]; rfl]
      rw [if_neg hb, if_neg hd]
    rw [heq]
    refine ⟨?_, rfl⟩
    simp only
    rw [doBackup_files, hfiles]
    have : index.toNat = i := by omega
    rw [this]
  · intro sysT dv h
    obtain ⟨h1, _, i, hii, hi, _, hfiles⟩ := deleteEntry_ok h
    have hlk : ∃ c0, lookupFile sys.files name = some c0 := by
      rcases hl : lookupFile sys.files name with _ | c0
      · exfalso
        unfold deleteEntry at h
        simp [h1, hl] at h
      · exact ⟨c0, rfl⟩
    obtain ⟨c0, hc0⟩ := hlk
    have hb : ¬(index < 0 ∨ ((entriesOf sys name).length : Int) ≤ index) := by
      push_neg
      omega
    have heq : deleteEntry sys name index false =
        ({ doBackup sys name with
            files := putFile (doBackup sys name).files name
              (writeLines ((entriesOf sys name).eraseIdx index.toNat)) },
         .error .IOFailure) := by
      unfold deleteEntry
      simp only [h1, Bool.not_true, Bool.false_eq_true, if_false]
      rw [hc0]
      rw [show readLines (lookupFile (doBackup sys name).files name) = entriesOf sys name by
        rw [doBackup_files]; rfl]
      rw [if_neg hb]
    rw [heq]
    refine ⟨?_, rfl⟩
    simp only
    rw [doBackup_files, hfiles]
    have : index.toNat = i := by omega
    rw [this]

/-- C6, witness: a concrete add whose logging-success run succeeds; the
logging-failure run leaves the same file state and reports `IOFailure`. -/
theorem C6_witness :
    (addEntry emptySys (("a.txt").toList) (("x").toList) false).1.files
      = (addEntry emptySys (("a.txt").toList) (("x").toList) true).1.files ∧
    (addEntry emptySys (("a.txt").toList) (("x").toList) false).2
      = .error .IOFailure := by
  refine (C6_log_failure emptySys (("a.txt").toList) 0 (("x").toList)).1
    (addEntry emptySys (("a.txt").toList) (("x").toList) true).1
    0 (("x").toList) ?_
  have h2 : (addEntry emptySys (("a.txt").toList) (("x").toList) true).2
      = .ok (0, ("x").toList) := by decide
  calc addEntry emptySys (("a.txt").toList) (("x").toList) true
      = ((addEntry emptySys (("a.txt").toList) (("x").toList) true).1,
         (addEntry emptySys (("a.txt").toList) (("x").toList) true).2) := rfl
    _ = _ := by rw [h2]

/-- C7, counterexample to the claim as stated: updating the absent list
`a.txt` with the blank value `"   "` fails with `NotFound`, not with
`EmptyEntry` — in `update_entry` the existence check (404) runs before
`validate_entry`. -/
theorem C7_counterexample :
    (updateEntry emptySys (("a.txt").toList) 0 (("   ").toList) true).2
      = .error .NotFound ∧
    (updateEntry emptySys (("a.txt").toList) 0 (("   ").toList) true).2
      ≠ .error .EmptyEntry := by
  decide

/-- C7 (amended): in `update_entry` the name validation does come first,
but the existence check precedes the entry-value validation: for every
valid name whose list is absent, the update fails with `NotFound`
whatever the raw value (in particular for values that are empty after
trimming), and the state is unchanged. -/
theorem C7_update_absent (sys : Sys) (name : Str) (index : Int) (raw : Str)
    (logOk : Bool) (hname : validFilename name = true)
    (habs : lookupFile sys.files name = none) :
    updateEntry sys name index raw logOk = (sys, .error .NotFound) := by
  unfold updateEntry
  simp [hname, habs]

/-- C7, witness: the concrete absent-list blank-value update fails with
`NotFound` and leaves the store unchanged. -/
theorem C7_witness :
    updateEntry emptySys (("a.txt").toList) 0 (("   ").toList) true
      = (emptySys, .error .NotFound) :=
  C7_update_absent emptySys (("a.txt").toList) 0 (("   ").toList) true
    (by decide) (by decide)

/-- C8: round trip.  A list file persisted by the store's own writes holds
`writeLines L` for the entry lines `L` (each non-blank and free of line
terminators — the shape `write_file_lines` receives from single-line
values, and the shape every read yields).  Exporting such a file returns
its bytes verbatim, and splitting those bytes on `\n` and filtering out
the blank pieces reproduces exactly `L`, in order. -/
theorem C8_roundtrip (L : List Str) (sys : Sys) (name : Str)
    (hname : validFilename name = true)
    (h : ∀ l ∈ L, pyStrip l ≠ [] ∧ '\n' ∉ l ∧ '\r' ∉ l)
    (hc : lookupFile sys.files name = some (writeLines L)) :
    exportFile sys name = .ok (writeLines L) ∧
    (splitNL (writeLines L)).filter (fun l => !(pyStrip l).isEmpty) = L := by
  have htr : translate (writeLines L) = writeLines L :=
    translate_of_not_mem (cr_not_mem_writeLines fun l hl => (h l hl).2.2)
  constructor
  · have he : exportFile sys name = .ok (translate (writeLines L)) := by
      unfold exportFile
      simp [hname, hc]
    rw [he, htr]
  · have hrt := readLines_writeLines h
    simp only [readLines, htr] at hrt
    exact hrt

/-- C8, witness: the two-entry list `["a", "b"]` exports as `"a\nb\n"`,
whose split-and-filter is `["a", "b"]` again. -/
theorem C8_witness :
    exportFile ⟨[(("a.txt").toList, writeLines [("a").toList, ("b").toList])], [], []⟩
      (("a.txt").toList) = .ok (writeLines [("a").toList, ("b").toList]) ∧
    (splitNL (writeLines [("a").toList, ("b").toList])).filter
      (fun l => !(pyStrip l).isEmpty) = [("a").toList, ("b").toList] :=
  C8_roundtrip [("a").toList, ("b").toList]
    ⟨[(("a.txt").toList, writeLines [("a").toList, ("b").toList])], [], []⟩
    (("a.txt").toList) (by decide) (by decide) (by decide)

/-- C9: every name that contains `..`, contains a path separator (`/` or
`\`), or lacks the `.txt` suffix fails `validate_filename`, and every
store operation rejects it with `InvalidName` while leaving the entire
state — files, backups, ledger — untouched (the rejection happens before
`create_backup`, before any write, and before `log_change`). -/
theorem C9_invalid_rejected (sys : Sys) (name : Str) (index : Int) (raw : Str)
    (logOk : Bool)
    (h : hasSub ['.', '.'] name = true ∨ name.contains '/' = true ∨
      name.contains '\\' = true ∨ txtSuffix.isSuffixOf name = false) :
    validFilename name = false ∧
    addEntry sys name raw logOk = (sys, .error .InvalidName) ∧
    updateEntry sys name index raw logOk = (sys, .error .InvalidName) ∧
    deleteEntry sys name index logOk = (sys, .error .InvalidName) ∧
    getFileEntries sys name = .error .InvalidName ∧
    exportFile sys name = .error .InvalidName := by
  have hval : validFilename name = false := by
    unfold validFilename
    rcases h with h | h | h | h
    · simp [h]
    · have h' : '/' ∈ name := by simpa using h
      simp [h']
    · have h' : '\\' ∈ name := by simpa using h
      simp [h']
    · simp [h]
  refine ⟨hval, ?_, ?_, ?_, ?_, ?_⟩
  · unfold addEntry
    simp [hval]
  · unfold updateEntry
    simp [hval]
  · unfold deleteEntry
    simp [hval]
  · unfold getFileEntries
    simp [hval]
  · unfold exportFile
    simp [hval]

/-- C9, witness: the traversal attempt `"../etc/passwd.txt"` is rejected
by every operation with `InvalidName` and no state change. -/
theorem C9_witness :
    validFilename (("../etc/passwd.txt").toList) = false ∧
    addEntry emptySys (("../etc/passwd.txt").toList) (("x").toList) true
      = (emptySys, .error .InvalidName) ∧
    updateEntry emptySys (("../etc/passwd.txt").toList) 0 (("x").toList) true
      = (emptySys, .error .InvalidName) ∧
    deleteEntry emptySys (("../etc/passwd.txt").toList) 0 true
      = (emptySys, .error .InvalidName) ∧
    getFileEntries emptySys (("../etc/passwd.txt").toList) = .error .InvalidName ∧
    exportFile emptySys (("../etc/passwd.txt").toList) = .error .InvalidName :=
  C9_invalid_rejected emptySys (("../etc/passwd.txt").toList) 0 (("x").toList)
    true (by decide)

/-- C10: the name `"a.bak.b.txt"` passes `validate_filename` (its
characters are all allowed, it ends in `.txt`, and it contains no `..`,
`/` or `\`), a list can be created under it by add and read back through
the API, yet `list_files` never returns it: the listing's `'.bak.' not in
name` backup-exclusion filter also hides this non-backup list. -/
theorem C10_hidden_list :
    validFilename (("a.bak.b.txt").toList) = true ∧
    (addEntry emptySys (("a.bak.b.txt").toList) (("x").toList) true).2
      = .ok (0, ("x").toList) ∧
    getFileEntries (addEntry emptySys (("a.bak.b.txt").toList) (("x").toList) true).1
      (("a.bak.b.txt").toList) = .ok [(0, ("x").toList)] ∧
    (("a.bak.b.txt").toList)
      ∉ listFiles (addEntry emptySys (("a.bak.b.txt").toList) (("x").toList) true).1 := by
  decide

end ListManager
